import Mathlib

/-!
# Verification of the Localizer runtime localization manager

Shallow embedding of `include/Localizer.h` (header-only C++17 localization
library) together with proofs about its specified behaviour.

Modelling conventions:
* `std::unordered_map<K, V>` is modelled as an association list
  `List (K × V)` with at most one entry per key; `UMap.find?`, `UMap.insert`
  and `UMap.contains` model `find`, `operator[] =` and `contains`.
  Position of an entry in the list is irrelevant (hash maps are unordered);
  `UMap.insert` updates in place or appends.
* `nlohmann::json` trees are modelled by the mutual inductives `Json` and
  `JFields` (object nodes carry an ordered field list; string leaves carry
  their text; every other leaf kind — numbers, booleans, arrays, null — is
  collapsed into `Json.other`, since the code only distinguishes
  `is_object()` / `is_string()` / everything else).
* Filesystem access (modification times, directory enumeration, JSON
  decoding) is an external collaborator; it is passed in as explicit data
  (`FileEntry`, `DirEntry`, functions `String → Option FileEntry`).
* The static mutable state of class `Localizer` is the record `LocState`;
  member functions become state-passing functions.
-/

namespace Localizer

/-! ## Unordered-map model -/

/-- Model of `std::unordered_map` lookup (`find` / `contains`):
the value stored for key `k`, if any. -/
def UMap.find? {κ β : Type} [DecidableEq κ] : List (κ × β) → κ → Option β
  | [], _ => none
  | (k1, v1) :: rest, k => if k1 = k then some v1 else UMap.find? rest k

/-- Model of `std::unordered_map` assignment `m[k] = v`: update the entry in
place when present, append it otherwise. -/
def UMap.insert {κ β : Type} [DecidableEq κ] : List (κ × β) → κ → β → List (κ × β)
  | [], k, v => [(k, v)]
  | (k1, v1) :: rest, k, v =>
    if k1 = k then (k1, v) :: rest else (k1, v1) :: UMap.insert rest k v

/-- Model of `std::unordered_map::contains`. -/
def UMap.contains {κ β : Type} [DecidableEq κ] (m : List (κ × β)) (k : κ) : Bool :=
  (UMap.find? m k).isSome

/-- `firstSome a b` is `a` when `a` carries a value and `b` otherwise
(used to state override / fallback facts about map writes). -/
def firstSome {β : Type} : Option β → Option β → Option β
  | some v, _ => some v
  | none, b => b

/-- The value of the last entry for key `k` in a write sequence (later
entries override earlier ones, as with repeated map assignment). -/
def lookupLast {κ β : Type} [DecidableEq κ] : List (κ × β) → κ → Option β
  | [], _ => none
  | (k1, v1) :: rest, k =>
    firstSome (lookupLast rest k) (if k1 = k then some v1 else none)

/-- Perform the write sequence `l` on map `m` (`m[k] = v` for each pair of
`l`, in order). -/
def insertList {κ β : Type} [DecidableEq κ]
    (m : List (κ × β)) (l : List (κ × β)) : List (κ × β) :=
  l.foldl (fun acc kv => UMap.insert acc kv.1 kv.2) m

/-! ## JSON tree model

`nlohmann::json` is an external collaborator; the code distinguishes only
object nodes (`is_object()`), string leaves (`is_string()`) and everything
else (ignored).  Object fields are kept in the order `items()` yields them.
-/

mutual
inductive Json : Type where
  | str (s : String) : Json
  | other : Json
  | obj (fields : JFields) : Json

inductive JFields : Type where
  | nil : JFields
  | cons (key : String) (val : Json) (rest : JFields) : JFields
end

mutual
/-- Number of nodes of a JSON tree (termination measure for the
work-list loop). -/
def jsonSize : Json → Nat
  | .str _ => 1
  | .other => 1
  | .obj fs => 1 + fieldsSize fs

def fieldsSize : JFields → Nat
  | .nil => 0
  | .cons _ v rest => jsonSize v + fieldsSize rest
end

/-- `LOC_NAMESPACE_SEPARATOR` (default configuration). -/
def NAMESPACE_SEPARATOR : String := "."

/-- `LOC_DEFAULT_LOCALE` / `Localizer::DEFAULT_LOCALE` (default
configuration). -/
def DEFAULT_LOCALE : String := "en"

/-- `prefix.empty() ? key : prefix + LOC_NAMESPACE_SEPARATOR + key`
(key formation inside `flattenJsonIterative`). -/
def joinKey (pfx key : String) : String :=
  if pfx = "" then key else pfx ++ NAMESPACE_SEPARATOR ++ key

/-- Total JSON size carried by a work-list. -/
def stackSize (stack : List (Json × String)) : Nat :=
  (stack.map (fun t => jsonSize t.1)).sum

/-- The body of the `for (auto &[key, value] : node->items())` loop of
`Localizer::flattenJsonIterative`: object children are pushed onto the
work-list (`push_back`, modelled by consing since the list head is the
vector's back), string children are written to `out`, all other children
are skipped. -/
def processItems (pfx : String) :
    JFields → List (Json × String) → List (String × String) →
    List (Json × String) × List (String × String)
  | .nil, stack, out => (stack, out)
  | .cons key v rest, stack, out =>
    let fullKey := joinKey pfx key
    match v with
    | .obj _ => processItems pfx rest ((v, fullKey) :: stack) out
    | .str s => processItems pfx rest stack (UMap.insert out fullKey s)
    | .other => processItems pfx rest stack out

/-- Bound on the work pushed by one `processItems` pass (a definition of
the certificate the termination argument of `flattenLoop` uses). -/
def processItems_stackSize (pfx : String) :
    ∀ (fs : JFields) (stack : List (Json × String)) (out : List (String × String)),
    stackSize (processItems pfx fs stack out).1 ≤ fieldsSize fs + stackSize stack
  | .nil, stack, out => by simp [processItems]
  | .cons key v rest, stack, out => by
    cases v with
    | obj fs2 =>
      have h := processItems_stackSize pfx rest ((Json.obj fs2, joinKey pfx key) :: stack) out
      simp only [processItems, fieldsSize, stackSize, List.map_cons, List.sum_cons] at h ⊢
      omega
    | str s =>
      have h := processItems_stackSize pfx rest stack (UMap.insert out (joinKey pfx key) s)
      simp only [processItems, fieldsSize, jsonSize] at h ⊢
      omega
    | other =>
      have h := processItems_stackSize pfx rest stack out
      simp only [processItems, fieldsSize, jsonSize] at h ⊢
      omega

/-- The `while (!stack.empty())` loop of `Localizer::flattenJsonIterative`.
The popped node's `items()` are traversed by `processItems`; a non-object
node yields no items. -/
def flattenLoop : List (Json × String) → List (String × String) → List (String × String)
  | [], out => out
  | (Json.obj fs, pfx) :: stack, out =>
    let r := processItems pfx fs stack out
    flattenLoop r.1 r.2
  | (Json.str _, _) :: stack, out => flattenLoop stack out
  | (Json.other, _) :: stack, out => flattenLoop stack out
termination_by stack _ => stackSize stack
decreasing_by
  · have h := processItems_stackSize pfx fs stack out
    simp only [stackSize, List.map_cons, List.sum_cons, jsonSize] at h ⊢
    omega
  · simp only [stackSize, List.map_cons, List.sum_cons, jsonSize]
    omega
  · simp only [stackSize, List.map_cons, List.sum_cons, jsonSize]
    omega

/-- `Localizer::flattenJsonIterative(root, basePrefix, out)` with a fresh
`out` map, as called from `loadFromFile`.  (The work-list only ever holds
object nodes; a non-object initial node yields no items in this model.) -/
def flattenJsonIterative (root : Json) (basePfx : String) : List (String × String) :=
  flattenLoop [(root, basePfx)] []

/-! ## Characterisation of the iterative flattener -/

/-- The `(key, value)` writes performed directly for the string children of
one field list, in field order. -/
def strEmits (pfx : String) : JFields → List (String × String)
  | .nil => []
  | .cons key v rest =>
    (match v with
     | .str s => [(joinKey pfx key, s)]
     | _ => []) ++ strEmits pfx rest

/-- The work-list entries pushed for the object children of one field list
(reversed, because `push_back` + popping from the back is LIFO). -/
def objTasks (pfx : String) : JFields → List (Json × String)
  | .nil => []
  | .cons key v rest =>
    objTasks pfx rest ++ (match v with
     | .obj _ => [(v, joinKey pfx key)]
     | _ => [])

/-- Bound on the work-list contribution of `objTasks` (a definition of
the certificate the termination argument of `stackEmits` uses). -/
def objTasks_stackSize (pfx : String) :
    ∀ fs : JFields, stackSize (objTasks pfx fs) ≤ fieldsSize fs
  | .nil => by simp [objTasks, stackSize]
  | .cons key v rest => by
    have h := objTasks_stackSize pfx rest
    cases v <;>
      simp [objTasks, fieldsSize, stackSize, jsonSize,
        List.map_append, List.sum_append] at h ⊢ <;>
      omega

/-- The flat list of `(key, value)` pairs the loop writes for a whole
work-list, in write order. -/
def stackEmits : List (Json × String) → List (String × String)
  | [] => []
  | (Json.obj fs, pfx) :: stack => strEmits pfx fs ++ stackEmits (objTasks pfx fs ++ stack)
  | (Json.str _, _) :: stack => stackEmits stack
  | (Json.other, _) :: stack => stackEmits stack
termination_by stack => stackSize stack
decreasing_by
  · have h := objTasks_stackSize pfx fs
    simp only [stackSize, List.map_cons, List.sum_cons, List.map_append,
      List.sum_append, jsonSize] at h ⊢
    omega
  · simp only [stackSize, List.map_cons, List.sum_cons, jsonSize]
    omega
  · simp only [stackSize, List.map_cons, List.sum_cons, jsonSize]
    omega

/-! ## Spec-side description of the string leaves

Written from the specification: the flattener shall emit exactly the string
leaves, keyed by the base prefix joined with the accumulated path of field
names, and shall ignore every non-string non-object leaf. -/

/-- The base prefix joined with an accumulated path, one component at a
time (an empty base yields the bare path). -/
def joinPath (basePfx : String) (path : List String) : String :=
  path.foldl joinKey basePfx

mutual
/-- Modelled from the spec: the string leaves of a tree, each with its
accumulated path of field names.  Non-string, non-object leaves contribute
nothing. -/
def leavesPaths : Json → List (List String × String)
  | .str _ => []
  | .other => []
  | .obj fs => fieldsLeaves fs

def fieldsLeaves : JFields → List (List String × String)
  | .nil => []
  | .cons key v rest =>
    (match v with
     | .str s => [([key], s)]
     | .obj _ => (leavesPaths v).map (fun p => (key :: p.1, p.2))
     | .other => []) ++ fieldsLeaves rest
end

/-- Sample tree from the spec: the object `a: (b: "x", c: 3)`. -/
def sampleFields : JFields :=
  JFields.cons "a"
    (Json.obj (JFields.cons "b" (Json.str "x") (JFields.cons "c" Json.other JFields.nil)))
    JFields.nil

/-! ## The Localizer state and its member functions -/

/-- `struct DebugOptions`.  The `prefix` member is called `pfx` here
(`prefix` is reserved in Lean); defaults are `LOC_COLOR_DEFAULT` and
`LOC_COLOR_RESET`. -/
structure DebugOptions where
  enabled : Bool := false
  coloredOutput : Bool := true
  keyColor : String := "\x1b[32m"
  resetColor : String := "\x1b[0m"
  pfx : String := ""
deriving DecidableEq

/-- The static data members of class `Localizer` (the error callback is
modelled at the call sites, the mutex in the lock-event model below). -/
structure LocState where
  currentLocale : String
  translations : List (String × List (String × String))
  jsons : List String
  fileTimestamps : List (String × Nat)
  debugOptions : DebugOptions
deriving DecidableEq

/-- The in-class initialisers of the static members. -/
def initState : LocState :=
  { currentLocale := DEFAULT_LOCALE, translations := [], jsons := [],
    fileTimestamps := [], debugOptions := {} }

/-- `translations[locale]` as an rvalue: `std::unordered_map::operator[]`
returns the stored table, inserting an empty one first when the key is
absent. -/
def getOrInsert (tr : List (String × List (String × String))) (loc : String) :
    List (String × String) × List (String × List (String × String)) :=
  match UMap.find? tr loc with
  | some t => (t, tr)
  | none => ([], UMap.insert tr loc [])

/-- `Localizer::translate(key)`: debug prefix construction, then lookup in
`translations[currentLocale]`, then `translations[DEFAULT_LOCALE]`, else
the missing-key placeholder.  Because of `operator[]`, the lookups mutate
`translations`; the returned pair is (result string, state after). -/
def translate (key : String) (s : LocState) : String × LocState :=
  let dbg := s.debugOptions
  let pfx : String :=
    if dbg.enabled then
      dbg.pfx ++
        (if dbg.coloredOutput then
          dbg.keyColor ++ "[" ++ key ++ "]" ++ dbg.resetColor ++ " "
        else "[" ++ key ++ "] ")
    else ""
  let r1 := getOrInsert s.translations s.currentLocale
  match UMap.find? r1.1 key with
  | some v => (pfx ++ v, { s with translations := r1.2 })
  | none =>
    let r2 := getOrInsert r1.2 DEFAULT_LOCALE
    match UMap.find? r2.1 key with
    | some v => (pfx ++ v, { s with translations := r2.2 })
    | none =>
      let missing := "[Missing:" ++ key ++ "]"
      (if dbg.enabled && dbg.coloredOutput then
        dbg.keyColor ++ missing ++ dbg.resetColor
      else missing,
      { s with translations := r2.2 })

/-- `Localizer::hasKey(key)`: `translations[currentLocale].contains(key) ||
translations[DEFAULT_LOCALE].contains(key)` — note the `operator[]` side
effects and the short-circuiting `||`. -/
def hasKey (key : String) (s : LocState) : Bool × LocState :=
  let r1 := getOrInsert s.translations s.currentLocale
  if UMap.contains r1.1 key then (true, { s with translations := r1.2 })
  else
    let r2 := getOrInsert r1.2 DEFAULT_LOCALE
    (UMap.contains r2.1 key, { s with translations := r2.2 })

/-- `Localizer::setLocale(locale)`: succeeds iff `translations.contains(locale)`. -/
def setLocale (locale : String) (s : LocState) : Bool × LocState :=
  if UMap.contains s.translations locale then
    (true, { s with currentLocale := locale })
  else (false, s)

/-- `Localizer::getLocale()`. -/
def getLocale (s : LocState) : String := s.currentLocale

/-! ## Ingestion -/

/-- Decoded contents of one JSON file as supplied by the filesystem and
decoder collaborators: modification time, path stem (base name without
extension) and the decoded top-level items (locale code ↦ subtree). -/
structure FileEntry where
  mtime : Nat
  stem : String
  data : JFields

/-- The inner loop of `loadFromFile` for one locale:
`translations[lang][ns + separator + key] = value` for each flattened
pair, in map order. -/
def insertFlat (ns lang : String) (flatMap : List (String × String))
    (tr : List (String × List (String × String))) :
    List (String × List (String × String)) :=
  flatMap.foldl (fun acc kv =>
    UMap.insert acc lang
      (UMap.insert ((UMap.find? acc lang).getD [])
        (ns ++ NAMESPACE_SEPARATOR ++ kv.1) kv.2)) tr

/-- The `for (auto &[lang, root] : data.items())` loop of `loadFromFile`:
each locale subtree is flattened with empty base prefix and written under
the namespace. -/
def loadLangs (ns : String) :
    JFields → List (String × List (String × String)) →
    List (String × List (String × String))
  | .nil, tr => tr
  | .cons lang root rest, tr =>
    loadLangs ns rest (insertFlat ns lang (flattenJsonIterative root "") tr)

/-- `Localizer::loadFromFile(path)`, success path: record the modification
time, register the path if new, ingest the decoded tree under the file's
stem as namespace.  (An open or decode failure throws before any of these
effects; that path is modelled in `loadFromDirectory`.) -/
def loadFromFile (path : String) (fe : FileEntry) (s : LocState) : LocState :=
  { s with
    fileTimestamps := UMap.insert s.fileTimestamps path fe.mtime,
    jsons := if s.jsons.contains path then s.jsons else s.jsons ++ [path],
    translations := loadLangs fe.stem fe.data s.translations }

/-- `translations[L][K]` read without side effects (`none` when the locale
or the key is absent): the contents of the Table Store at `(L, K)`. -/
def find2 (tr : List (String × List (String × String))) (L K : String) :
    Option String :=
  (UMap.find? tr L).bind (fun t => UMap.find? t K)

/-- The value `loadFromFile` leaves at `(L, K)` from one decoded file, if
the file defines that locale and namespaced key: later locale items
override earlier ones; one locale item contributes its flattened pairs
under `ns ++ separator ++ flatKey`. -/
def fileValue (ns L K : String) : JFields → Option String
  | .nil => none
  | .cons lang root rest =>
    firstSome (fileValue ns L K rest)
      (if lang = L then
        lookupLast ((flattenJsonIterative root "").map
          (fun kv => (ns ++ NAMESPACE_SEPARATOR ++ kv.1, kv.2))) K
      else none)

/-- A populated state: locales "en" and "fr" loaded, active locale "fr",
debug off. -/
def demoState : LocState :=
  { currentLocale := "fr",
    translations :=
      [("en", [("hello", "Hello"), ("only.en", "English")]),
       ("fr", [("hello", "Bonjour")])],
    jsons := [], fileTimestamps := [], debugOptions := {} }

/-- `demoState` with debug mode enabled, colored output off and prefix
"DBG ". -/
def demoStateDbg : LocState :=
  { demoState with
    debugOptions := { enabled := true, coloredOutput := false, pfx := "DBG " } }

/-- A state whose only Table Store entry is locale "fr" with key "k";
active locale "fr"; "en" (the default locale) has no entry. -/
def frOnlyState : LocState :=
  { currentLocale := "fr", translations := [("fr", [("k", "v")])],
    jsons := [], fileTimestamps := [], debugOptions := {} }

/-- Decoded data of a first sample file defining `en / a.b = "old"`. -/
def c6File1 : FileEntry :=
  { mtime := 1, stem := "game",
    data := JFields.cons "en"
      (Json.obj (JFields.cons "a"
        (Json.obj (JFields.cons "b" (Json.str "old") JFields.nil)) JFields.nil))
      JFields.nil }

/-- Decoded data of a later sample file defining `en / a.b = "new"`. -/
def c6File2 : FileEntry :=
  { mtime := 2, stem := "game",
    data := JFields.cons "en"
      (Json.obj (JFields.cons "a"
        (Json.obj (JFields.cons "b" (Json.str "new") JFields.nil)) JFields.nil))
      JFields.nil }

/-! ## Directory loading -/

/-- One entry yielded by the directory iterator (an external collaborator):
its path, whether it is a regular file, its extension (dot included, as
`std::filesystem::path::extension()`), and the decoded file when opening
and decoding succeed — `none` models a `loadFromFile` call that throws
before mutating any state. -/
structure DirEntry where
  path : String
  isRegularFile : Bool
  ext : String
  entry : Option FileEntry

/-- The `tryLoad` lambda of `loadFromDirectory`: regular files with the
`.json` extension are passed to `loadFromFile`; a thrown load is caught
and reported on the error callback with code 1; other entries are
skipped. -/
def tryLoad (acc : LocState × List (String × Nat)) (e : DirEntry) :
    LocState × List (String × Nat) :=
  if e.isRegularFile && (e.ext == ".json") then
    match e.entry with
    | some fe => (loadFromFile e.path fe acc.1, acc.2)
    | none => (acc.1, acc.2 ++ [("[!] Failed to load " ++ e.path, 1)])
  else acc

/-- `Localizer::loadFromDirectory(folderPath, recursive)`: throws
`std::runtime_error` (modelled as `Except.error`) when the directory does
not exist; otherwise folds `tryLoad` over the entries the (recursive or
flat, permission-denied-skipping) iterator yields.  The collected second
component lists the error-callback invocations `(message, code)`. -/
def loadFromDirectory (folderPath : String) (dirExists : Bool)
    (entries : List DirEntry) (s : LocState) :
    Except String (LocState × List (String × Nat)) :=
  if !dirExists then Except.error ("Directory not found: " ++ folderPath)
  else Except.ok (entries.foldl tryLoad (s, []))

/-- A well-formed directory entry whose load succeeds. -/
def c7Good : DirEntry :=
  { path := "langs/game.json", isRegularFile := true, ext := ".json",
    entry := some c6File1 }

/-- A `.json` entry whose open/decode throws. -/
def c7Bad : DirEntry :=
  { path := "langs/bad.json", isRegularFile := true, ext := ".json",
    entry := none }

/-! ## Change watcher -/

/-- The loop of `Localizer::checkForJsonChanges`: iterate the timestamp
registry entries; skip a path whose file no longer exists; when the
current modification time differs from the stored one, store the new time
first and then re-invoke `loadFromFile` for that path.  `fsView` is the
filesystem/decoder collaborator: the current contents for a path, `none`
when the file does not exist. -/
def checkLoop (fsView : String → Option FileEntry) :
    List (String × Nat) → LocState → LocState
  | [], st => st
  | (path, oldTime) :: rest, st =>
    match fsView path with
    | none => checkLoop fsView rest st
    | some fe =>
      if fe.mtime ≠ oldTime then
        checkLoop fsView rest
          (loadFromFile path fe
            { st with fileTimestamps := UMap.insert st.fileTimestamps path fe.mtime })
      else checkLoop fsView rest st

/-- `Localizer::checkForJsonChanges()`. -/
def checkForJsonChanges (fsView : String → Option FileEntry) (s : LocState) : LocState :=
  checkLoop fsView s.fileTimestamps s

/-- A state tracking one loaded file "a.json" with stored mtime 5. -/
def c8State : LocState :=
  { currentLocale := DEFAULT_LOCALE, translations := [], jsons := ["a.json"],
    fileTimestamps := [("a.json", 5)], debugOptions := {} }

/-- Filesystem view where "a.json" still has mtime 5 (unchanged). -/
def c8Fs : String → Option FileEntry := fun p =>
  if p = "a.json" then some { mtime := 5, stem := "a", data := JFields.nil } else none

/-- The same file after a modification: mtime 9. -/
def c8NewEntry : FileEntry := { mtime := 9, stem := "a", data := JFields.nil }

/-- Filesystem view where "a.json" now has mtime 9. -/
def c8FsNew : String → Option FileEntry := fun p =>
  if p = "a.json" then some c8NewEntry else none

/-! ## Placeholder engine

`LocalizedString::applyPlaceholders`, non-regex branch (the default,
`LOC_USE_REGEX == 0`).  Text is modelled as `List Char`; the parameter
map as an association list over `List Char` names. -/

/-- `text.find(c)` returning the split around the first occurrence:
`some (before, after)` with `text = before ++ c :: after` and
`c ∉ before`; `none` when `c` does not occur (`std::string::npos`). -/
def splitAtChar (c : Char) : List Char → Option (List Char × List Char)
  | [] => none
  | x :: xs =>
    if x = c then some ([], xs)
    else
      match splitAtChar c xs with
      | none => none
      | some (a, b) => some (x :: a, b)

/-- Every `some` answer of `splitAtChar` decomposes its input.  (Stated as
a definition because the termination argument of `applyPlaceholders`
needs it.) -/
def splitAtChar_decomp (c : Char) :
    ∀ (l a b : List Char), splitAtChar c l = some (a, b) → l = a ++ c :: b
  | [], a, b => by
    intro h
    simp [splitAtChar] at h
  | x :: xs, a, b => by
    intro h
    rw [splitAtChar] at h
    by_cases hx : x = c
    · rw [if_pos hx] at h
      cases h
      simp [hx]
    · rw [if_neg hx] at h
      cases hs : splitAtChar c xs with
      | none => rw [hs] at h; simp at h
      | some p =>
        obtain ⟨a', b'⟩ := p
        rw [hs] at h
        simp only [Option.some.injEq, Prod.mk.injEq] at h
        obtain ⟨ha, hb⟩ := h
        subst ha
        subst hb
        have hr := splitAtChar_decomp c xs a' b' hs
        simp [hr]

/-- `LocalizedString::applyPlaceholders(text, params)`: scan left to
right; with no opening brace left, copy the remainder; with an opening
brace but no closing brace after it, copy the remainder (unterminated
fragment stays verbatim); otherwise emit the copied prefix, then the
parameter value on a map hit or the original token (braces included) on a
miss, and continue right after the closing brace. -/
def applyPlaceholders (params : List (List Char × List Char)) (text : List Char) : List Char :=
  match h1 : splitAtChar '\x7b' text with
  | none => text
  | some (before, after) =>
    match h2 : splitAtChar '\x7d' after with
    | none => text
    | some (name, rest) =>
      before ++
        (match UMap.find? params name with
         | some v => v
         | none => '\x7b' :: (name ++ ['\x7d'])) ++
        applyPlaceholders params rest
termination_by text.length
decreasing_by
  have e1 := splitAtChar_decomp '\x7b' text before after h1
  have e2 := splitAtChar_decomp '\x7d' after name rest h2
  subst e1
  subst e2
  simp [List.length_append]
  omega

/-- The parameter map of the spec's placeholder example. -/
def c4Params : List (List Char × List Char) :=
  [("name".toList, "Oksi".toList), ("score".toList, "9000".toList)]

/-! ## Lock discipline

The locking of the public member functions under `LOC_THREAD_SAFE == 1`:
`LOC_READ_LOCK` is a scoped `std::shared_lock`, `LOC_WRITE_LOCK` a scoped
`std::unique_lock`, both on the single static `std::shared_mutex` of
`getMutex()`.  Each function's sequence of lock acquisitions and releases
is transcribed from the source; `std::shared_mutex` is non-recursive, so
acquiring it again on the same thread while it is already held is
undefined behaviour (in practice a self-deadlock). -/

inductive LockEv : Type where
  | acqShared : LockEv
  | relShared : LockEv
  | acqExcl : LockEv
  | relExcl : LockEv
deriving DecidableEq

/-- `loadFromFile`: `LOC_WRITE_LOCK` on entry, scoped release on return. -/
def loadFromFileEvents : List LockEv := [LockEv.acqExcl, LockEv.relExcl]

/-- `translate` (also `hasKey`, `getLocale`, `isDebugModeOn`,
`getDebugOptionsConst`): `LOC_READ_LOCK`, scoped. -/
def translateEvents : List LockEv := [LockEv.acqShared, LockEv.relShared]

/-- `setLocale` (also `setDebugMode`, `setDebugOptions`):
`LOC_WRITE_LOCK`, scoped. -/
def setLocaleEvents : List LockEv := [LockEv.acqExcl, LockEv.relExcl]

/-- `loadFromDirectory` passing `n` matching files to `loadFromFile`: the
body takes NO lock of its own — only the nested `loadFromFile` calls
lock, one scope per file. -/
def loadFromDirectoryEvents (n : Nat) : List LockEv :=
  (List.replicate n loadFromFileEvents).flatten

/-- `reloadAllJsons` with `n` registered files: `LOC_WRITE_LOCK` on entry,
then each nested `loadFromFile` call attempts `LOC_WRITE_LOCK` again on
the same mutex. -/
def reloadAllJsonsEvents (n : Nat) : List LockEv :=
  [LockEv.acqExcl] ++ (List.replicate n loadFromFileEvents).flatten ++ [LockEv.relExcl]

/-- `checkForJsonChanges` reloading `n` changed files: `LOC_WRITE_LOCK` on
entry, then a nested `loadFromFile` (with its own `LOC_WRITE_LOCK`) per
changed file. -/
def checkForJsonChangesEvents (n : Nat) : List LockEv :=
  [LockEv.acqExcl] ++ (List.replicate n loadFromFileEvents).flatten ++ [LockEv.relExcl]

/-- Whether executing the events in order, with `held` locks already held
by this thread, attempts an acquisition while the thread already holds
the non-recursive mutex — a self-deadlock. -/
def selfDeadlocks : List LockEv → Nat → Bool
  | [], _ => false
  | LockEv.acqShared :: rest, held =>
    if held > 0 then true else selfDeadlocks rest (held + 1)
  | LockEv.acqExcl :: rest, held =>
    if held > 0 then true else selfDeadlocks rest (held + 1)
  | LockEv.relShared :: rest, held => selfDeadlocks rest (held - 1)
  | LockEv.relExcl :: rest, held => selfDeadlocks rest (held - 1)

/-- The number of locks held after each successive event (hold profile of
a call). -/
def heldProfile : List LockEv → Nat → List Nat
  | [], _ => []
  | e :: rest, held =>
    let h2 := match e with
      | LockEv.acqShared => held + 1
      | LockEv.acqExcl => held + 1
      | LockEv.relShared => held - 1
      | LockEv.relExcl => held - 1
    h2 :: heldProfile rest h2

/-! ## Theorems -/

@[simp] theorem UMap.find?_nil {κ β : Type} [DecidableEq κ] (k : κ) :
    UMap.find? ([] : List (κ × β)) k = none := rfl

@[simp] theorem UMap.find?_insert_self {κ β : Type} [DecidableEq κ]
    (m : List (κ × β)) (k : κ) (v : β) :
    UMap.find? (UMap.insert m k v) k = some v := by
  induction m with
  | nil => simp [UMap.find?, UMap.insert]
  | cons hd tl ih =>
    obtain ⟨k1, v1⟩ := hd
    by_cases h : k1 = k <;> simp [UMap.find?, UMap.insert, h, ih]

theorem UMap.find?_insert_ne {κ β : Type} [DecidableEq κ]
    (m : List (κ × β)) (k k' : κ) (v : β) (h : k' ≠ k) :
    UMap.find? (UMap.insert m k v) k' = UMap.find? m k' := by
  induction m with
  | nil => simp [UMap.find?, UMap.insert, Ne.symm h]
  | cons hd tl ih =>
    obtain ⟨k1, v1⟩ := hd
    by_cases h1 : k1 = k
    · subst h1
      simp [UMap.find?, UMap.insert, Ne.symm h]
    · by_cases h2 : k1 = k' <;> simp [UMap.find?, UMap.insert, h1, h2, ih, h]

theorem UMap.find?_insert {κ β : Type} [DecidableEq κ]
    (m : List (κ × β)) (k k' : κ) (v : β) :
    UMap.find? (UMap.insert m k v) k' = if k' = k then some v else UMap.find? m k' := by
  by_cases h : k' = k
  · subst h; simp
  · simp [h, UMap.find?_insert_ne m k k' v h]

@[simp] theorem UMap.contains_insert_self {κ β : Type} [DecidableEq κ]
    (m : List (κ × β)) (k : κ) (v : β) :
    UMap.contains (UMap.insert m k v) k = true := by
  simp [UMap.contains]

theorem UMap.contains_insert {κ β : Type} [DecidableEq κ]
    (m : List (κ × β)) (k k' : κ) (v : β) :
    UMap.contains (UMap.insert m k v) k' =
      if k' = k then true else UMap.contains m k' := by
  by_cases h : k' = k
  · subst h; simp
  · simp [UMap.contains, h, UMap.find?_insert_ne m k k' v h]

@[simp] theorem firstSome_some {β : Type} (v : β) (b : Option β) :
    firstSome (some v) b = some v := rfl

@[simp] theorem firstSome_none {β : Type} (b : Option β) :
    firstSome none b = b := rfl

@[simp] theorem insertList_nil {κ β : Type} [DecidableEq κ] (m : List (κ × β)) :
    insertList m [] = m := rfl

@[simp] theorem insertList_cons {κ β : Type} [DecidableEq κ]
    (m : List (κ × β)) (k : κ) (v : β) (l : List (κ × β)) :
    insertList m ((k, v) :: l) = insertList (UMap.insert m k v) l := rfl

/-- Looking up after a write sequence: the last write for the key wins,
falling back to the original map. -/
theorem find?_insertList {κ β : Type} [DecidableEq κ]
    (l : List (κ × β)) (m : List (κ × β)) (k : κ) :
    UMap.find? (insertList m l) k = firstSome (lookupLast l k) (UMap.find? m k) := by
  induction l generalizing m with
  | nil => simp [lookupLast]
  | cons hd tl ih =>
    obtain ⟨k1, v1⟩ := hd
    rw [insertList_cons, ih]
    cases h : lookupLast tl k with
    | some v => simp [lookupLast, h]
    | none =>
      by_cases hk : k1 = k
      · subst hk; simp [lookupLast, h]
      · simp [lookupLast, h, hk, UMap.find?_insert_ne m k1 k v1 (Ne.symm hk)]

theorem lookupLast_mem {κ β : Type} [DecidableEq κ]
    (l : List (κ × β)) (k : κ) (v : β) (h : lookupLast l k = some v) :
    (k, v) ∈ l := by
  induction l with
  | nil => simp [lookupLast] at h
  | cons hd tl ih =>
    obtain ⟨k1, v1⟩ := hd
    rw [lookupLast] at h
    cases h1 : lookupLast tl k with
    | some v' =>
      rw [h1] at h
      simp only [firstSome_some, Option.some.injEq] at h
      subst h; exact List.mem_cons_of_mem _ (ih h1)
    | none =>
      rw [h1] at h
      simp only [firstSome_none] at h
      by_cases hk : k1 = k
      · subst hk
        rw [if_pos rfl] at h
        cases h
        exact List.mem_cons_self _ _
      · simp [hk] at h

theorem mem_lookupLast_isSome {κ β : Type} [DecidableEq κ]
    (l : List (κ × β)) (k : κ) (v : β) (h : (k, v) ∈ l) :
    (lookupLast l k).isSome := by
  induction l with
  | nil => simp at h
  | cons hd tl ih =>
    obtain ⟨k1, v1⟩ := hd
    rw [lookupLast]
    rcases List.mem_cons.mp h with h1 | h1
    · cases h1
      cases hl : lookupLast tl k <;> simp
    · have := ih h1
      cases hl : lookupLast tl k <;> simp_all

theorem jsonSize_pos (j : Json) : 1 ≤ jsonSize j := by
  cases j <;> simp [jsonSize]

@[simp] theorem stackSize_nil : stackSize [] = 0 := rfl

@[simp] theorem stackSize_cons (t : Json × String) (stack : List (Json × String)) :
    stackSize (t :: stack) = jsonSize t.1 + stackSize stack := rfl

theorem processItems_spec (pfx : String) :
    ∀ (fs : JFields) (stack : List (Json × String)) (out : List (String × String)),
    processItems pfx fs stack out =
      (objTasks pfx fs ++ stack, insertList out (strEmits pfx fs))
  | .nil, stack, out => by simp [processItems, objTasks, strEmits]
  | .cons key v rest, stack, out => by
    cases v with
    | obj fs2 =>
      rw [processItems, processItems_spec pfx rest]
      simp [objTasks, strEmits]
    | str s =>
      rw [processItems, processItems_spec pfx rest]
      simp [objTasks, strEmits]
    | other =>
      rw [processItems, processItems_spec pfx rest]
      simp [objTasks, strEmits]

theorem stackSize_append (a b : List (Json × String)) :
    stackSize (a ++ b) = stackSize a + stackSize b := by
  simp [stackSize]

theorem insertList_append {κ β : Type} [DecidableEq κ]
    (m : List (κ × β)) (a b : List (κ × β)) :
    insertList m (a ++ b) = insertList (insertList m a) b := by
  simp [insertList, List.foldl_append]

/-- The loop is exactly the write sequence `stackEmits` applied to `out`. -/
theorem flattenLoop_eq_insertList :
    ∀ (stack : List (Json × String)) (out : List (String × String)),
    flattenLoop stack out = insertList out (stackEmits stack)
  | [], out => by simp [flattenLoop, stackEmits]
  | (Json.obj fs, pfx) :: stack, out => by
    rw [flattenLoop, processItems_spec pfx fs stack out]
    rw [flattenLoop_eq_insertList (objTasks pfx fs ++ stack) (insertList out (strEmits pfx fs))]
    rw [stackEmits, insertList_append]
  | (Json.str s, pfx) :: stack, out => by
    rw [flattenLoop, stackEmits, flattenLoop_eq_insertList stack out]
  | (Json.other, pfx) :: stack, out => by
    rw [flattenLoop, stackEmits, flattenLoop_eq_insertList stack out]
termination_by stack _ => stackSize stack
decreasing_by
  · have h := objTasks_stackSize pfx fs
    simp only [stackSize_cons, stackSize_append, jsonSize]
    omega
  · simp only [stackSize_cons, jsonSize]
    omega
  · simp only [stackSize_cons, jsonSize]
    omega

@[simp] theorem joinPath_nil (b : String) : joinPath b [] = b := rfl

@[simp] theorem joinPath_cons (b k : String) (p : List String) :
    joinPath b (k :: p) = joinPath (joinKey b k) p := rfl

theorem fields_emits_mem (pfx : String) :
    ∀ (fs : JFields) (K v : String),
    ((K, v) ∈ strEmits pfx fs ∨
      ∃ t ∈ objTasks pfx fs, ∃ p, (p, v) ∈ leavesPaths t.1 ∧ K = joinPath t.2 p) ↔
    ∃ p, (p, v) ∈ fieldsLeaves fs ∧ K = joinPath pfx p
  | .nil, K, v => by simp [strEmits, objTasks, fieldsLeaves]
  | .cons key vv rest, K, v => by
    have ih := fields_emits_mem pfx rest K v
    cases vv with
    | str s =>
      simp only [strEmits, objTasks, fieldsLeaves, List.append_nil, List.singleton_append,
        List.mem_cons, List.mem_append, Prod.mk.injEq] at ih ⊢
      constructor
      · rintro ((⟨h1, h2⟩ | h) | h)
        · exact ⟨[key], Or.inl ⟨rfl, h2⟩, by simp [h1]⟩
        · obtain ⟨p, hp, hK⟩ := ih.mp (Or.inl h)
          exact ⟨p, Or.inr hp, hK⟩
        · obtain ⟨p, hp, hK⟩ := ih.mp (Or.inr h)
          exact ⟨p, Or.inr hp, hK⟩
      · rintro ⟨p, hp | hp, hK⟩
        · obtain ⟨hp1, hp2⟩ := hp
          subst hp1
          simp only [joinPath_cons, joinPath_nil] at hK
          exact Or.inl (Or.inl ⟨hK, hp2⟩)
        · rcases ih.mpr ⟨p, hp, hK⟩ with h | h
          · exact Or.inl (Or.inr h)
          · exact Or.inr h
    | obj fs2 =>
      simp only [strEmits, objTasks, fieldsLeaves, List.nil_append, List.mem_append,
        List.mem_singleton, List.mem_map] at ih ⊢
      constructor
      · rintro (h | ⟨t, ht | ht, hc⟩)
        · obtain ⟨p, hp, hK⟩ := ih.mp (Or.inl h)
          exact ⟨p, Or.inr hp, hK⟩
        · obtain ⟨p, hp, hK⟩ := ih.mp (Or.inr ⟨t, ht, hc⟩)
          exact ⟨p, Or.inr hp, hK⟩
        · subst ht
          obtain ⟨p, hp, hK⟩ := hc
          exact ⟨key :: p, Or.inl ⟨(p, v), hp, rfl⟩, by simpa using hK⟩
      · rintro ⟨p, hp | hp, hK⟩
        · obtain ⟨q, hq, hqe⟩ := hp
          obtain ⟨q1, q2⟩ := q
          cases hqe
          refine Or.inr ⟨(Json.obj fs2, joinKey pfx key), Or.inr rfl, q1, hq, ?_⟩
          simpa using hK
        · rcases ih.mpr ⟨p, hp, hK⟩ with h | ⟨t, ht, hc⟩
          · exact Or.inl h
          · exact Or.inr ⟨t, Or.inl ht, hc⟩
    | other =>
      simp only [strEmits, objTasks, fieldsLeaves, List.append_nil, List.nil_append] at ih ⊢
      exact ih

theorem stackEmits_mem :
    ∀ (stack : List (Json × String)) (K v : String),
    (K, v) ∈ stackEmits stack ↔
      ∃ t ∈ stack, ∃ p, (p, v) ∈ leavesPaths t.1 ∧ K = joinPath t.2 p
  | [], K, v => by simp [stackEmits]
  | (Json.obj fs, pfx) :: stack, K, v => by
    have ih := stackEmits_mem (objTasks pfx fs ++ stack) K v
    rw [stackEmits]
    simp only [List.mem_append, List.mem_cons] at ih ⊢
    constructor
    · rintro (h | h)
      · obtain ⟨p, hp, hK⟩ := (fields_emits_mem pfx fs K v).mp (Or.inl h)
        exact ⟨(Json.obj fs, pfx), Or.inl rfl, p, by simpa [leavesPaths] using hp, hK⟩
      · rcases ih.mp h with ⟨t, ht | ht, hc⟩
        · obtain ⟨p, hp, hK⟩ := (fields_emits_mem pfx fs K v).mp (Or.inr ⟨t, ht, hc⟩)
          exact ⟨(Json.obj fs, pfx), Or.inl rfl, p, by simpa [leavesPaths] using hp, hK⟩
        · exact ⟨t, Or.inr ht, hc⟩
    · rintro ⟨t, ht | ht, hc⟩
      · subst ht
        obtain ⟨p, hp, hK⟩ := hc
        rw [leavesPaths] at hp
        rcases (fields_emits_mem pfx fs K v).mpr ⟨p, hp, hK⟩ with h | ⟨t', ht', hc'⟩
        · exact Or.inl h
        · exact Or.inr (ih.mpr ⟨t', Or.inl ht', hc'⟩)
      · exact Or.inr (ih.mpr ⟨t, Or.inr ht, hc⟩)
  | (Json.str s, pfx) :: stack, K, v => by
    have ih := stackEmits_mem stack K v
    rw [stackEmits]
    simp only [List.mem_cons, ih]
    constructor
    · rintro ⟨t, ht, hc⟩
      exact ⟨t, Or.inr ht, hc⟩
    · rintro ⟨t, ht | ht, hc⟩
      · subst ht
        obtain ⟨p, hp, _⟩ := hc
        simp [leavesPaths] at hp
      · exact ⟨t, ht, hc⟩
  | (Json.other, pfx) :: stack, K, v => by
    have ih := stackEmits_mem stack K v
    rw [stackEmits]
    simp only [List.mem_cons, ih]
    constructor
    · rintro ⟨t, ht, hc⟩
      exact ⟨t, Or.inr ht, hc⟩
    · rintro ⟨t, ht | ht, hc⟩
      · subst ht
        obtain ⟨p, hp, _⟩ := hc
        simp [leavesPaths] at hp
      · exact ⟨t, ht, hc⟩
termination_by stack _ _ => stackSize stack
decreasing_by
  · have h := objTasks_stackSize pfx fs
    simp only [stackSize_cons, stackSize_append, jsonSize]
    omega
  · simp only [stackSize_cons, jsonSize]
    omega
  · simp only [stackSize_cons, jsonSize]
    omega

/-- The final flattened map is the last-write-wins reading of the loop's
write sequence. -/
theorem find?_flattenJsonIterative (root : Json) (basePfx : String) (K : String) :
    UMap.find? (flattenJsonIterative root basePfx) K =
      lookupLast (stackEmits [(root, basePfx)]) K := by
  rw [flattenJsonIterative, flattenLoop_eq_insertList, find?_insertList]
  cases lookupLast (stackEmits [(root, basePfx)]) K <;> simp

/-- C5: for every nested tree and base prefix (with the joined keys of the
string leaves pairwise distinct, as the spec's keying assumes), `flatten`
emits exactly the string leaves: the output map holds `v` at key `K` iff
`K` is the base prefix joined with the accumulated path of a string leaf
whose text is `v`; in particular every non-string non-object leaf
contributes no entry. -/
theorem c5_flatten_emits_exactly_string_leaves
    (fs : JFields) (basePfx : String)
    (hkeys : (((leavesPaths (Json.obj fs)).map (fun q => joinPath basePfx q.1))).Nodup)
    (K v : String) :
    UMap.find? (flattenJsonIterative (Json.obj fs) basePfx) K = some v ↔
      ∃ p, (p, v) ∈ leavesPaths (Json.obj fs) ∧ K = joinPath basePfx p := by
  have hinj := List.inj_on_of_nodup_map hkeys
  rw [find?_flattenJsonIterative]
  constructor
  · intro h
    have hmem := lookupLast_mem _ _ _ h
    have h2 := (stackEmits_mem [(Json.obj fs, basePfx)] K v).mp hmem
    simpa using h2
  · rintro ⟨p, hp, hK⟩
    have hmem : (K, v) ∈ stackEmits [(Json.obj fs, basePfx)] :=
      (stackEmits_mem _ K v).mpr ⟨(Json.obj fs, basePfx), by simp, p, hp, hK⟩
    obtain ⟨v', hv'⟩ := Option.isSome_iff_exists.mp (mem_lookupLast_isSome _ _ _ hmem)
    have hmem' := lookupLast_mem _ _ _ hv'
    obtain ⟨p', hp', hK'⟩ := by
      simpa using (stackEmits_mem [(Json.obj fs, basePfx)] K v').mp hmem'
    have heq : ((p', v') : List String × String) = (p, v) :=
      hinj hp' hp (by rw [← hK', ← hK])
    rw [hv']
    cases heq
    rfl

/-- C5 witness: on the spec's example tree under base prefix "ns", the
hypothesis holds and the flattened map holds "x" at "ns.a.b". -/
theorem c5_witness :
    (((leavesPaths (Json.obj sampleFields)).map (fun q => joinPath "ns" q.1))).Nodup ∧
    UMap.find? (flattenJsonIterative (Json.obj sampleFields) "ns") "ns.a.b" = some "x" :=
  ⟨by decide,
   (c5_flatten_emits_exactly_string_leaves sampleFields "ns" (by decide) "ns.a.b" "x").mpr
     ⟨["a", "b"], by decide, by decide⟩⟩

/-! ## Resolver lemmas -/

theorem getOrInsert_fst (tr : List (String × List (String × String))) (loc : String) :
    (getOrInsert tr loc).1 = (UMap.find? tr loc).getD [] := by
  rw [getOrInsert]
  cases UMap.find? tr loc <;> simp

theorem getOrInsert_find?_getD (tr : List (String × List (String × String)))
    (loc loc' : String) :
    (UMap.find? (getOrInsert tr loc).2 loc').getD [] = (UMap.find? tr loc').getD [] := by
  rw [getOrInsert]
  cases h : UMap.find? tr loc with
  | some t => simp
  | none =>
    by_cases he : loc' = loc
    · subst he; simp [UMap.find?_insert_self, h]
    · simp [UMap.find?_insert_ne tr loc loc' [] he]

theorem getOrInsert_contains_self (tr : List (String × List (String × String)))
    (loc : String) : UMap.contains (getOrInsert tr loc).2 loc = true := by
  rw [getOrInsert]
  cases h : UMap.find? tr loc with
  | some t => simp [UMap.contains, h]
  | none => simp

theorem getOrInsert_contains_mono (tr : List (String × List (String × String)))
    (loc loc' : String) (h : UMap.contains tr loc' = true) :
    UMap.contains (getOrInsert tr loc).2 loc' = true := by
  rw [getOrInsert]
  cases hf : UMap.find? tr loc with
  | some t => simpa using h
  | none =>
    by_cases he : loc' = loc
    · subst he; simp
    · simpa [UMap.contains, UMap.find?_insert_ne tr loc loc' [] he] using h

/-- The result string of `translate`, expressed over the pre-call Table
Store (the `operator[]`-inserted empty tables look up like absent ones). -/
theorem translate_result (s : LocState) (K : String) :
    (translate K s).1 =
      (let dbg := s.debugOptions
       let pfx : String :=
         if dbg.enabled then
           dbg.pfx ++
             (if dbg.coloredOutput then
               dbg.keyColor ++ "[" ++ K ++ "]" ++ dbg.resetColor ++ " "
             else "[" ++ K ++ "] ")
         else ""
       match UMap.find? ((UMap.find? s.translations s.currentLocale).getD []) K with
       | some v => pfx ++ v
       | none =>
         match UMap.find? ((UMap.find? s.translations DEFAULT_LOCALE).getD []) K with
         | some v => pfx ++ v
         | none =>
           let missing := "[Missing:" ++ K ++ "]"
           if dbg.enabled && dbg.coloredOutput then
             dbg.keyColor ++ missing ++ dbg.resetColor
           else missing) := by
  simp only [translate, getOrInsert_fst, getOrInsert_find?_getD]
  cases UMap.find? ((UMap.find? s.translations s.currentLocale).getD []) K with
  | some v => rfl
  | none =>
    cases UMap.find? ((UMap.find? s.translations DEFAULT_LOCALE).getD []) K with
    | some v => rfl
    | none => rfl

theorem string_empty_append (v : String) : "" ++ v = v := by
  cases v
  rfl

/-- C1: with debug decoration off, `translate` resolves by the fallback
chain: the Active Locale's value when the key is present there, else the
default locale's value when present there, else exactly
`"[Missing:" ++ key ++ "]"`. -/
theorem c1_translate_fallback_chain (s : LocState) (K : String)
    (hdbg : s.debugOptions.enabled = false) :
    (∀ v, UMap.find? ((UMap.find? s.translations s.currentLocale).getD []) K = some v →
       (translate K s).1 = v) ∧
    (UMap.find? ((UMap.find? s.translations s.currentLocale).getD []) K = none →
       ∀ v, UMap.find? ((UMap.find? s.translations DEFAULT_LOCALE).getD []) K = some v →
       (translate K s).1 = v) ∧
    (UMap.find? ((UMap.find? s.translations s.currentLocale).getD []) K = none →
       UMap.find? ((UMap.find? s.translations DEFAULT_LOCALE).getD []) K = none →
       (translate K s).1 = "[Missing:" ++ K ++ "]") := by
  refine ⟨?_, ?_, ?_⟩
  · intro v hv
    rw [translate_result]
    simp only [hdbg, if_false, hv, Bool.false_eq_true]
    exact string_empty_append v
  · intro hc v hv
    rw [translate_result]
    simp only [hdbg, if_false, hc, hv, Bool.false_eq_true]
    exact string_empty_append v
  · intro hc hd
    rw [translate_result]
    simp only [hdbg, if_false, hc, hd, Bool.false_eq_true, Bool.false_and]

/-- C3: with debug mode on, found and fallback results get the configured
prefix plus a bracketed (optionally colored) echo of the key, while a
missing-key result gets no prefix and no echo: it is color-wrapped when
colored output is on and returned bare otherwise. -/
theorem c3_debug_decoration (s : LocState) (K : String)
    (hdbg : s.debugOptions.enabled = true) :
    (∀ v, UMap.find? ((UMap.find? s.translations s.currentLocale).getD []) K = some v →
       (translate K s).1 =
         s.debugOptions.pfx ++
           (if s.debugOptions.coloredOutput then
             s.debugOptions.keyColor ++ "[" ++ K ++ "]" ++ s.debugOptions.resetColor ++ " "
           else "[" ++ K ++ "] ") ++ v) ∧
    (UMap.find? ((UMap.find? s.translations s.currentLocale).getD []) K = none →
       ∀ v, UMap.find? ((UMap.find? s.translations DEFAULT_LOCALE).getD []) K = some v →
       (translate K s).1 =
         s.debugOptions.pfx ++
           (if s.debugOptions.coloredOutput then
             s.debugOptions.keyColor ++ "[" ++ K ++ "]" ++ s.debugOptions.resetColor ++ " "
           else "[" ++ K ++ "] ") ++ v) ∧
    (UMap.find? ((UMap.find? s.translations s.currentLocale).getD []) K = none →
       UMap.find? ((UMap.find? s.translations DEFAULT_LOCALE).getD []) K = none →
       (translate K s).1 =
         if s.debugOptions.coloredOutput then
           s.debugOptions.keyColor ++ ("[Missing:" ++ K ++ "]") ++ s.debugOptions.resetColor
         else "[Missing:" ++ K ++ "]") := by
  refine ⟨?_, ?_, ?_⟩
  · intro v hv
    rw [translate_result]
    simp only [hdbg, if_true, hv]
  · intro hc v hv
    rw [translate_result]
    simp only [hdbg, if_true, hc, hv]
  · intro hc hd
    rw [translate_result]
    simp only [hdbg, if_true, hc, hd, Bool.true_and]

/-- C1 witness: in `demoState` (debug off) the key "hello" resolves from
the active locale "fr". -/
theorem c1_witness :
    demoState.debugOptions.enabled = false ∧
    (translate "hello" demoState).1 = "Bonjour" :=
  ⟨rfl, (c1_translate_fallback_chain demoState "hello" rfl).1 "Bonjour" (by decide)⟩

/-- C3 witness: in `demoStateDbg` (debug on, colors off) the found result
carries the prefix and the bracketed key echo. -/
theorem c3_witness :
    demoStateDbg.debugOptions.enabled = true ∧
    (translate "hello" demoStateDbg).1 = "DBG " ++ "[hello] " ++ "Bonjour" := by
  refine ⟨rfl, ?_⟩
  have h := (c3_debug_decoration demoStateDbg "hello" rfl).1 "Bonjour" (by decide)
  simpa using h

/-! ## setLocale and the operator[] side effects of the resolver -/

theorem setLocale_fst (s : LocState) (loc : String) :
    (setLocale loc s).1 = UMap.contains s.translations loc := by
  rw [setLocale]
  by_cases h : UMap.contains s.translations loc = true <;> simp_all

/-- C2 counterexample: from the initial state (no file ever loaded —
`jsons` is empty and stays empty), a single `translate` call makes
`setLocale "en"` succeed, contradicting the claim that `setLocale` returns
false for a locale never touched by any ingestion. -/
theorem c2_counterexample :
    (setLocale "en" (translate "x" initState).2).1 = true ∧
    (translate "x" initState).2.jsons = [] ∧
    initState.jsons = [] := by decide

/-- C2 (amended): `setLocale(locale)` returns true and sets the Active
Locale iff `locale` has an entry in the Table Store (which can also arise
from a `translate`/`hasKey` `operator[]` side effect, not only from
ingestion); otherwise it returns false and leaves the whole state
unchanged. -/
theorem c2_setLocale_iff_entry (s : LocState) (loc : String) :
    ((setLocale loc s).1 = UMap.contains s.translations loc) ∧
    (UMap.contains s.translations loc = true →
      (setLocale loc s).2 = { s with currentLocale := loc }) ∧
    (UMap.contains s.translations loc = false →
      (setLocale loc s).2 = s) := by
  refine ⟨setLocale_fst s loc, ?_, ?_⟩
  · intro h
    rw [setLocale]
    simp [h]
  · intro h
    rw [setLocale]
    simp [h]

/-- C2 witness: in `demoState`, "de" was never registered: `setLocale "de"`
returns `contains = false` and leaves the state unchanged. -/
theorem c2_witness :
    (setLocale "de" demoState).1 = UMap.contains demoState.translations "de" ∧
    (setLocale "de" demoState).2 = demoState :=
  ⟨(c2_setLocale_iff_entry demoState "de").1,
   (c2_setLocale_iff_entry demoState "de").2.2 (by decide)⟩

/-- The Table Store after `translate`: the active locale is
`operator[]`-touched always, the default locale only when the key was not
found in the active locale's table. -/
theorem translate_translations (s : LocState) (K : String) :
    (translate K s).2.translations =
      match UMap.find? ((UMap.find? s.translations s.currentLocale).getD []) K with
      | some _ => (getOrInsert s.translations s.currentLocale).2
      | none =>
        (getOrInsert (getOrInsert s.translations s.currentLocale).2 DEFAULT_LOCALE).2 := by
  simp only [translate, getOrInsert_fst]
  cases UMap.find? ((UMap.find? s.translations s.currentLocale).getD []) K with
  | some v => rfl
  | none =>
    cases UMap.find? ((UMap.find? (getOrInsert s.translations s.currentLocale).2
        DEFAULT_LOCALE).getD []) K <;> rfl

/-- The Table Store after `hasKey`: the active locale is touched always,
the default locale only when `||` does not short-circuit. -/
theorem hasKey_translations (s : LocState) (K : String) :
    (hasKey K s).2.translations =
      if UMap.contains ((UMap.find? s.translations s.currentLocale).getD []) K then
        (getOrInsert s.translations s.currentLocale).2
      else
        (getOrInsert (getOrInsert s.translations s.currentLocale).2 DEFAULT_LOCALE).2 := by
  simp only [hasKey, getOrInsert_fst]
  by_cases h : UMap.contains ((UMap.find? s.translations s.currentLocale).getD []) K <;>
    simp [h]

/-- C9 counterexample: active locale "fr" holds the key, "en" (the default)
has no entry; `translate` finds the key in the active table, so the
default locale's table is NOT inserted and `setLocale "en"` still fails —
contradicting "calling either operation inserts an empty key table for
that locale" and "after any translate or hasKey call, setLocale(default
locale) returns true". -/
theorem c9_counterexample :
    UMap.contains (translate "k" frOnlyState).2.translations DEFAULT_LOCALE = false ∧
    (setLocale DEFAULT_LOCALE (translate "k" frOnlyState).2).1 = false ∧
    (setLocale DEFAULT_LOCALE (translate "k" frOnlyState).2).2.currentLocale = "fr" := by
  decide

/-- C9 (amended): `translate` and `hasKey` are not read-only: each call
inserts an empty table for the Active Locale when absent; the default
locale's table is inserted only when the lookup (resp. `contains`) on the
active table does not succeed, and in that case `setLocale(default)`
afterwards returns true even if no file ever loaded that locale. -/
theorem c9_resolver_side_effects (s : LocState) (K : String) :
    (UMap.contains (translate K s).2.translations s.currentLocale = true) ∧
    (UMap.find? ((UMap.find? s.translations s.currentLocale).getD []) K = none →
      UMap.contains (translate K s).2.translations DEFAULT_LOCALE = true ∧
      (setLocale DEFAULT_LOCALE (translate K s).2).1 = true) ∧
    (UMap.contains (hasKey K s).2.translations s.currentLocale = true) ∧
    (UMap.contains ((UMap.find? s.translations s.currentLocale).getD []) K = false →
      UMap.contains (hasKey K s).2.translations DEFAULT_LOCALE = true ∧
      (setLocale DEFAULT_LOCALE (hasKey K s).2).1 = true) := by
  refine ⟨?_, ?_, ?_, ?_⟩
  · rw [translate_translations]
    cases UMap.find? ((UMap.find? s.translations s.currentLocale).getD []) K with
    | some v => exact getOrInsert_contains_self _ _
    | none =>
      exact getOrInsert_contains_mono _ _ _ (getOrInsert_contains_self _ _)
  · intro h
    rw [translate_translations, h]
    refine ⟨getOrInsert_contains_self _ _, ?_⟩
    rw [setLocale_fst, translate_translations, h]
    exact getOrInsert_contains_self _ _
  · rw [hasKey_translations]
    by_cases h : UMap.contains ((UMap.find? s.translations s.currentLocale).getD []) K = true
    · rw [if_pos h]
      exact getOrInsert_contains_self _ _
    · rw [if_neg h]
      exact getOrInsert_contains_mono _ _ _ (getOrInsert_contains_self _ _)
  · intro h
    have hne : ¬ UMap.contains ((UMap.find? s.translations s.currentLocale).getD []) K = true := by
      simp [h]
    rw [hasKey_translations, if_neg hne]
    refine ⟨getOrInsert_contains_self _ _, ?_⟩
    rw [setLocale_fst, hasKey_translations, if_neg hne]
    exact getOrInsert_contains_self _ _

/-- C9 witness: looking up an unknown key in `demoState` touches the
default locale; afterwards `setLocale "en"` succeeds. -/
theorem c9_witness :
    UMap.contains (translate "zzz" demoState).2.translations "fr" = true ∧
    (setLocale DEFAULT_LOCALE (translate "zzz" demoState).2).1 = true :=
  ⟨(c9_resolver_side_effects demoState "zzz").1,
   ((c9_resolver_side_effects demoState "zzz").2.1 (by decide)).2⟩

/-! ## Ingestion lemmas -/

theorem find2_eq_getD (tr : List (String × List (String × String))) (L K : String) :
    find2 tr L K = UMap.find? ((UMap.find? tr L).getD []) K := by
  rw [find2]
  cases UMap.find? tr L with
  | some t => rfl
  | none => rfl

theorem find2_insert (tr : List (String × List (String × String)))
    (L' : String) (t : List (String × String)) (L K : String) :
    find2 (UMap.insert tr L' t) L K =
      if L = L' then UMap.find? t K else find2 tr L K := by
  rw [find2, find2, UMap.find?_insert]
  by_cases h : L = L' <;> simp [h]

theorem firstSome_assoc {β : Type} (a b c : Option β) :
    firstSome (firstSome a b) c = firstSome a (firstSome b c) := by
  cases a <;> rfl

/-- Effect of the inner write loop of `loadFromFile` on one Table Store
cell: for the written locale the last write for the key wins, all other
cells are unchanged. -/
theorem insertFlat_find2 (ns lang : String) (fm : List (String × String)) :
    ∀ (tr : List (String × List (String × String))) (L K : String),
    find2 (insertFlat ns lang fm tr) L K =
      if lang = L then
        firstSome
          (lookupLast (fm.map (fun kv => (ns ++ NAMESPACE_SEPARATOR ++ kv.1, kv.2))) K)
          (find2 tr L K)
      else find2 tr L K := by
  induction fm with
  | nil =>
    intro tr L K
    simp only [insertFlat, List.foldl_nil, List.map_nil, lookupLast, firstSome_none]
    split <;> rfl
  | cons hd fm ih =>
    intro tr L K
    obtain ⟨k1, v1⟩ := hd
    have hstep : insertFlat ns lang ((k1, v1) :: fm) tr =
        insertFlat ns lang fm
          (UMap.insert tr lang
            (UMap.insert ((UMap.find? tr lang).getD [])
              (ns ++ NAMESPACE_SEPARATOR ++ k1) v1)) := rfl
    rw [hstep, ih]
    by_cases hL : lang = L
    · subst hL
      rw [if_pos rfl, if_pos rfl, find2_insert, if_pos rfl, UMap.find?_insert,
        List.map_cons, lookupLast, firstSome_assoc, find2_eq_getD]
      have hx : (if K = ns ++ NAMESPACE_SEPARATOR ++ k1 then some v1
            else UMap.find? ((UMap.find? tr lang).getD []) K) =
          firstSome (if ns ++ NAMESPACE_SEPARATOR ++ k1 = K then some v1 else none)
            (UMap.find? ((UMap.find? tr lang).getD []) K) := by
        by_cases hK : K = ns ++ NAMESPACE_SEPARATOR ++ k1
        · rw [if_pos hK, if_pos (Eq.symm hK), firstSome_some]
        · rw [if_neg hK, if_neg (Ne.symm hK), firstSome_none]
      rw [hx]
    · simp only [hL, if_false]
      rw [find2_insert, if_neg (Ne.symm hL)]

/-- Effect of the whole locale loop of `loadFromFile` on one Table Store
cell: the file's last write for `(L, K)` wins, otherwise the cell is
unchanged. -/
theorem loadLangs_find2 (ns : String) :
    ∀ (data : JFields) (tr : List (String × List (String × String))) (L K : String),
    find2 (loadLangs ns data tr) L K =
      firstSome (fileValue ns L K data) (find2 tr L K)
  | .nil, tr, L, K => by simp [loadLangs, fileValue]
  | .cons lang root rest, tr, L, K => by
    rw [loadLangs, loadLangs_find2 ns rest, fileValue, insertFlat_find2, firstSome_assoc]
    by_cases hL : lang = L
    · rw [if_pos hL, if_pos hL]
    · rw [if_neg hL, if_neg hL, firstSome_none]

/-- Effect of `loadFromFile` on one Table Store cell. -/
theorem loadFromFile_find2 (path : String) (fe : FileEntry) (s : LocState) (L K : String) :
    find2 (loadFromFile path fe s).translations L K =
      firstSome (fileValue fe.stem L K fe.data) (find2 s.translations L K) := by
  rw [loadFromFile]
  exact loadLangs_find2 fe.stem fe.data s.translations L K

/-- C6: merging is last-write-wins per exact key: after two successful
`loadFromFile` calls, a cell defined by the later file holds the later
file's value; a cell defined only by the earlier file holds the earlier
file's value; a cell defined by neither is unchanged. -/
theorem c6_merge_last_write_wins (s : LocState) (p1 p2 : String)
    (f1 f2 : FileEntry) (L K : String) :
    (∀ v2, fileValue f2.stem L K f2.data = some v2 →
      find2 (loadFromFile p2 f2 (loadFromFile p1 f1 s)).translations L K = some v2) ∧
    (fileValue f2.stem L K f2.data = none →
      ∀ v1, fileValue f1.stem L K f1.data = some v1 →
      find2 (loadFromFile p2 f2 (loadFromFile p1 f1 s)).translations L K = some v1) ∧
    (fileValue f2.stem L K f2.data = none → fileValue f1.stem L K f1.data = none →
      find2 (loadFromFile p2 f2 (loadFromFile p1 f1 s)).translations L K =
        find2 s.translations L K) := by
  refine ⟨?_, ?_, ?_⟩
  · intro v2 h2
    rw [loadFromFile_find2, h2, firstSome_some]
  · intro h2 v1 h1
    rw [loadFromFile_find2, h2, firstSome_none, loadFromFile_find2, h1, firstSome_some]
  · intro h2 h1
    rw [loadFromFile_find2, h2, firstSome_none, loadFromFile_find2, h1, firstSome_none]

/-- C6 witness: both files define locale "en", key "game.a.b"; after
loading both, the later load's value "new" is stored. -/
theorem c6_witness :
    fileValue c6File2.stem "en" "game.a.b" c6File2.data = some "new" ∧
    find2 (loadFromFile "b/game.json" c6File2
      (loadFromFile "a/game.json" c6File1 initState)).translations "en" "game.a.b" =
      some "new" := by
  have hv : fileValue c6File2.stem "en" "game.a.b" c6File2.data = some "new" := by
    simp [c6File2, fileValue, flattenJsonIterative, flattenLoop, processItems,
      joinKey, NAMESPACE_SEPARATOR, UMap.insert, lookupLast, firstSome]
  exact ⟨hv,
    (c6_merge_last_write_wins initState "a/game.json" "b/game.json" c6File1 c6File2
      "en" "game.a.b").1 "new" hv⟩

/-- C7: `loadFromDirectory` hard-fails with the directory-not-found error
when the path does not exist; otherwise each regular `.json` entry goes
through `loadFromFile`, non-matching entries are skipped, and a failing
entry only appends a code-1 error report — the remaining entries are
still processed, from an unchanged state. -/
theorem c7_directory_loading (folderPath : String) (entries : List DirEntry)
    (s : LocState) :
    (loadFromDirectory folderPath false entries s =
      Except.error ("Directory not found: " ++ folderPath)) ∧
    (∀ acc (e : DirEntry), e.isRegularFile = true → e.ext = ".json" →
      ∀ fe, e.entry = some fe → tryLoad acc e = (loadFromFile e.path fe acc.1, acc.2)) ∧
    (∀ acc (e : DirEntry), e.isRegularFile = false ∨ e.ext ≠ ".json" →
      tryLoad acc e = acc) ∧
    (∀ pre (e : DirEntry) post, e.isRegularFile = true → e.ext = ".json" →
      e.entry = none →
      loadFromDirectory folderPath true (pre ++ e :: post) s =
        Except.ok (post.foldl tryLoad
          ((pre.foldl tryLoad (s, [])).1,
           (pre.foldl tryLoad (s, [])).2 ++ [("[!] Failed to load " ++ e.path, 1)]))) := by
  refine ⟨rfl, ?_, ?_, ?_⟩
  · intro acc e h1 h2 fe he
    simp [tryLoad, h1, h2, he]
  · intro acc e h
    rcases h with h | h <;> simp [tryLoad, h]
  · intro pre e post h1 h2 he
    have hstep : tryLoad (pre.foldl tryLoad (s, [])) e =
        ((pre.foldl tryLoad (s, [])).1,
         (pre.foldl tryLoad (s, [])).2 ++ [("[!] Failed to load " ++ e.path, 1)]) := by
      simp [tryLoad, h1, h2, he]
    rw [loadFromDirectory]
    simp only [Bool.not_true, if_false, List.foldl_append, List.foldl_cons, hstep]
    rfl

/-- C7 witness: a failing first entry is reported with code 1 and the
following entry is still loaded from the unchanged initial state. -/
theorem c7_witness :
    loadFromDirectory "langs" true [c7Bad, c7Good] initState =
      Except.ok ([c7Good].foldl tryLoad
        (initState, [("[!] Failed to load " ++ c7Bad.path, 1)])) := by
  have h := (c7_directory_loading "langs" [c7Bad, c7Good] initState).2.2.2
    [] c7Bad [c7Good] rfl rfl rfl
  simpa using h

theorem checkLoop_no_change (fsView : String → Option FileEntry)
    (entries : List (String × Nat)) (st : LocState)
    (h : ∀ p t, (p, t) ∈ entries → ∀ fe, fsView p = some fe → fe.mtime = t) :
    checkLoop fsView entries st = st := by
  induction entries with
  | nil => rfl
  | cons hd rest ih =>
    obtain ⟨p, t⟩ := hd
    cases hf : fsView p with
    | none =>
      simp only [checkLoop, hf]
      exact ih (fun p' t' hm => h p' t' (List.mem_cons_of_mem _ hm))
    | some fe =>
      have hm : fe.mtime = t := h p t (List.mem_cons_self _ _) fe hf
      simp only [checkLoop, hf]
      rw [if_neg (by simp [hm])]
      exact ih (fun p' t' hm' => h p' t' (List.mem_cons_of_mem _ hm'))

/-- C8: when no tracked file's current modification time differs from the
stored one (files that no longer exist are skipped), `checkForJsonChanges`
returns the state unchanged — no reload, Table Store untouched; when a
tracked file's time differs, the stored timestamp is updated first and
`loadFromFile` is then re-invoked for that path; a missing tracked file is
skipped. -/
theorem c8_change_watcher (fsView : String → Option FileEntry) (s : LocState) :
    ((∀ p t, (p, t) ∈ s.fileTimestamps → ∀ fe, fsView p = some fe → fe.mtime = t) →
      checkForJsonChanges fsView s = s) ∧
    (∀ p t rest (st : LocState) fe, fsView p = some fe → fe.mtime ≠ t →
      checkLoop fsView ((p, t) :: rest) st =
        checkLoop fsView rest
          (loadFromFile p fe
            { st with fileTimestamps := UMap.insert st.fileTimestamps p fe.mtime })) ∧
    (∀ p t rest (st : LocState), fsView p = none →
      checkLoop fsView ((p, t) :: rest) st = checkLoop fsView rest st) := by
  refine ⟨?_, ?_, ?_⟩
  · intro h
    exact checkLoop_no_change fsView s.fileTimestamps s h
  · intro p t rest st fe hf hne
    simp only [checkLoop, hf]
    rw [if_pos hne]
  · intro p t rest st hf
    simp only [checkLoop, hf]

/-- C8 witness: with no modification the watcher is the identity; with a
changed mtime the step re-invokes `loadFromFile` on the
timestamp-updated state. -/
theorem c8_witness :
    checkForJsonChanges c8Fs c8State = c8State ∧
    checkLoop c8FsNew [("a.json", 5)] c8State =
      checkLoop c8FsNew []
        (loadFromFile "a.json" c8NewEntry
          { c8State with
            fileTimestamps := UMap.insert c8State.fileTimestamps "a.json" c8NewEntry.mtime }) := by
  constructor
  · refine (c8_change_watcher c8Fs c8State).1 ?_
    intro p t hmem fe hfe
    have hp : p = "a.json" ∧ t = 5 := by
      simpa [c8State] using hmem
    obtain ⟨hp1, hp2⟩ := hp
    subst hp1
    subst hp2
    have h5 : some ({ mtime := 5, stem := "a", data := JFields.nil } : FileEntry) = some fe :=
      hfe
    cases h5
    rfl
  · exact (c8_change_watcher c8FsNew c8State).2.1 "a.json" 5 [] c8State c8NewEntry rfl
      (by decide)

theorem splitAtChar_eq_none (c : Char) (l : List Char) :
    splitAtChar c l = none ↔ c ∉ l := by
  induction l with
  | nil => simp [splitAtChar]
  | cons x xs ih =>
    rw [splitAtChar]
    by_cases hx : x = c
    · subst hx
      simp
    · rw [if_neg hx]
      cases hs : splitAtChar c xs with
      | none =>
        have h2 : c ∉ xs := ih.mp hs
        simp [List.mem_cons, h2, Ne.symm hx]
      | some p =>
        obtain ⟨a, b⟩ := p
        have hd := splitAtChar_decomp c xs a b hs
        simp [hd]

theorem splitAtChar_append_of_not_mem (c : Char) (a b : List Char) (h : c ∉ a) :
    splitAtChar c (a ++ c :: b) = some (a, b) := by
  induction a with
  | nil => simp [splitAtChar]
  | cons x xs ih =>
    have hx : x ≠ c := fun e => h (by simp [e])
    have hxs : c ∉ xs := fun m => h (List.mem_cons_of_mem _ m)
    rw [List.cons_append, splitAtChar, if_neg hx, ih hxs]

theorem applyPlaceholders_no_open (params : List (List Char × List Char))
    (text : List Char) (h : splitAtChar '\x7b' text = none) :
    applyPlaceholders params text = text := by
  unfold applyPlaceholders
  split
  · rfl
  · rename_i before after h1
    rw [h] at h1
    simp at h1

theorem applyPlaceholders_no_close (params : List (List Char × List Char))
    (text before after : List Char)
    (ho : splitAtChar '\x7b' text = some (before, after))
    (hc : splitAtChar '\x7d' after = none) :
    applyPlaceholders params text = text := by
  unfold applyPlaceholders
  split
  · rfl
  · rename_i b a h1
    have hba : before = b ∧ after = a := by simpa using ho.symm.trans h1
    obtain ⟨rfl, rfl⟩ := hba
    split
    · rfl
    · rename_i name rest h2
      rw [hc] at h2
      simp at h2

theorem applyPlaceholders_token (params : List (List Char × List Char))
    (text before after name rest : List Char)
    (ho : splitAtChar '\x7b' text = some (before, after))
    (hc : splitAtChar '\x7d' after = some (name, rest)) :
    applyPlaceholders params text =
      before ++
        (match UMap.find? params name with
         | some v => v
         | none => '\x7b' :: (name ++ ['\x7d'])) ++
        applyPlaceholders params rest := by
  conv_lhs => unfold applyPlaceholders
  split
  · rename_i h1
    rw [ho] at h1
    simp at h1
  · rename_i b a h1
    have hba : before = b ∧ after = a := by simpa using ho.symm.trans h1
    obtain ⟨rfl, rfl⟩ := hba
    split
    · rename_i h2
      rw [hc] at h2
      simp at h2
    · rename_i nm rs h2
      have hnr : name = nm ∧ rest = rs := by simpa using hc.symm.trans h2
      obtain ⟨rfl, rfl⟩ := hnr
      rfl

/-- C4: left-to-right placeholder substitution — a text with no opening
brace is copied unchanged; an opening brace with no closing brace before
the end leaves the whole text (prefix and trailing fragment) unchanged;
the first token is replaced by its parameter value when its name is in
the map and kept verbatim (braces included) otherwise, and scanning
continues right after the closing brace in both cases. -/
theorem c4_placeholder_substitution (params : List (List Char × List Char))
    (text : List Char) :
    ('\x7b' ∉ text → applyPlaceholders params text = text) ∧
    (∀ a b, text = a ++ '\x7b' :: b → '\x7b' ∉ a → '\x7d' ∉ b →
      applyPlaceholders params text = text) ∧
    (∀ a n r v, text = a ++ '\x7b' :: (n ++ '\x7d' :: r) → '\x7b' ∉ a → '\x7d' ∉ n →
      UMap.find? params n = some v →
      applyPlaceholders params text = a ++ v ++ applyPlaceholders params r) ∧
    (∀ a n r, text = a ++ '\x7b' :: (n ++ '\x7d' :: r) → '\x7b' ∉ a → '\x7d' ∉ n →
      UMap.find? params n = none →
      applyPlaceholders params text =
        a ++ ('\x7b' :: (n ++ ['\x7d'])) ++ applyPlaceholders params r) := by
  refine ⟨?_, ?_, ?_, ?_⟩
  · intro h
    exact applyPlaceholders_no_open params text ((splitAtChar_eq_none _ _).mpr h)
  · rintro a b rfl ha hb
    exact applyPlaceholders_no_close params _ a b
      (splitAtChar_append_of_not_mem _ _ _ ha) ((splitAtChar_eq_none _ _).mpr hb)
  · rintro a n r v rfl ha hn hv
    have h := applyPlaceholders_token params _ a (n ++ '\x7d' :: r) n r
      (splitAtChar_append_of_not_mem _ _ _ ha) (splitAtChar_append_of_not_mem _ _ _ hn)
    rw [h, hv]
  · rintro a n r rfl ha hn hv
    have h := applyPlaceholders_token params _ a (n ++ '\x7d' :: r) n r
      (splitAtChar_append_of_not_mem _ _ _ ha) (splitAtChar_append_of_not_mem _ _ _ hn)
    rw [h, hv]

/-- C4 witness: on the spec's example the first token `name` (present in
the map) is replaced by "Oksi" and scanning continues after it; and the
unterminated "open \x7b" is returned unchanged. -/
theorem c4_witness :
    applyPlaceholders c4Params
        ("Hi ".toList ++ '\x7b' :: ("name".toList ++ '\x7d' :: ", score ".toList)) =
      "Hi ".toList ++ "Oksi".toList ++ applyPlaceholders c4Params ", score ".toList ∧
    applyPlaceholders c4Params ("open ".toList ++ '\x7b' :: ([] : List Char)) =
      "open ".toList ++ '\x7b' :: ([] : List Char) :=
  ⟨(c4_placeholder_substitution c4Params
      ("Hi ".toList ++ '\x7b' :: ("name".toList ++ '\x7d' :: ", score ".toList))).2.2.1
      "Hi ".toList "name".toList ", score ".toList "Oksi".toList rfl
      (by decide) (by decide) (by decide),
   (c4_placeholder_substitution c4Params
      ("open ".toList ++ '\x7b' :: ([] : List Char))).2.1
      "open ".toList [] rfl (by decide) (by decide)⟩

/-- C10 (code bug): the claimed lock discipline does not hold —
`reloadAllJsons` and `checkForJsonChanges` re-acquire the already-held
non-recursive mutex through their nested `loadFromFile` calls
(self-deadlock / UB), and `loadFromDirectory` acquires no exclusive lock
of its own: with two files its hold profile drops to 0 mid-call, so no
single exclusive lock spans the call.  The single-scope discipline does
hold for `translate`, `setLocale` and a direct `loadFromFile`. -/
theorem c10_lock_discipline_bug :
    selfDeadlocks (reloadAllJsonsEvents 1) 0 = true ∧
    selfDeadlocks (checkForJsonChangesEvents 1) 0 = true ∧
    loadFromDirectoryEvents 2 =
      [LockEv.acqExcl, LockEv.relExcl, LockEv.acqExcl, LockEv.relExcl] ∧
    heldProfile (loadFromDirectoryEvents 2) 0 = [1, 0, 1, 0] ∧
    selfDeadlocks translateEvents 0 = false ∧
    selfDeadlocks setLocaleEvents 0 = false ∧
    selfDeadlocks loadFromFileEvents 0 = false := by
  decide

end Localizer
